import Mathlib

/-!
Shallow embedding of the core of `movie1(watts_strogatz).py`: an Izhikevich
spiking-neuron simulation on a fixed-out-degree directed random graph.
Real (floating-point) arithmetic is embedded as exact rational arithmetic;
numpy's seeded random source is modelled as a deterministic stream derived
from the seed, and `np.random.choice(..., replace=False)` as index selection
without replacement that fails exactly when the sample size exceeds the
population size.
-/

namespace IzhNet

/-- `np.clip x lo hi`: clamp `x` into `[lo, hi]`. -/
def clip (lo hi x : ℚ) : ℚ := min (max x lo) hi

/-- The single-neuron Izhikevich update, translated from `izhikevich` in the
source: `dV = 0.04*V**2 + 5*V + 140 - u + I`, `du = a*(b*V - u)`, both added
in place, then the reset branch `if V >= 30: V = c; u += d`. -/
def izhikevich (V u I a b c d : ℚ) : ℚ × ℚ :=
  let dV := 0.04 * V ^ 2 + 5 * V + 140 - u + I
  let du := a * (b * V - u)
  let V1 := V + dV
  let u1 := u + du
  if V1 ≥ 30 then (c, u1 + d) else (V1, u1)

/-- Deterministic stream of naturals derived from a seed; stands for the
seeded numpy generator (`np.random.seed`): the simulation only relies on the
stream being a function of the seed. -/
def mkStream (seed : ℕ) : ℕ → ℕ :=
  fun n => (1664525 * (seed + n) + 1013904223) % 4294967296

/-- A draw in `[0, 1)` taken from the seeded stream at offset `off`. -/
def unitDraw (seed off : ℕ) : ℚ :=
  ((mkStream seed off % 1024 : ℕ) : ℚ) / 1024

/-- `np.random.uniform lo hi` applied to one unit-interval draw `r`. -/
def unif (lo hi r : ℚ) : ℚ := lo + (hi - lo) * r

/-- Selection of `k` elements from `pop` without replacement, driven by the
stream `rng` starting at offset `off`: each round removes the element at the
randomly chosen index.  Models the sampling performed by
`np.random.choice(pop, k, replace=False)`. -/
def choiceAux (rng : ℕ → ℕ) : ℕ → ℕ → List ℕ → List ℕ
  | _, 0, _ => []
  | _, _ + 1, [] => []
  | off, k + 1, x :: xs =>
      let idx := rng off % (x :: xs).length
      (x :: xs).getD idx 0 :: choiceAux rng (off + 1) k ((x :: xs).eraseIdx idx)

/-- `np.random.choice(pop, k, replace=False)`: fails exactly when the
requested sample is larger than the population. -/
def npChoice (rng : ℕ → ℕ) (off : ℕ) (pop : List ℕ) (k : ℕ) :
    Except String (List ℕ) :=
  if k ≤ pop.length then Except.ok (choiceAux rng off k pop)
  else Except.error "Cannot take a larger sample than population when replace is False"

/-- The population `[n for n in range(N) if n != node]`. -/
def popList (N node : ℕ) : List ℕ :=
  (List.range N).filter (fun n => n != node)

/-- Graph construction loop body over a list of nodes: for each node, draw
`k` distinct non-self targets.  Each node consumes `k` positions of the
stream. -/
def buildAux (rng : ℕ → ℕ) (N k : ℕ) : List ℕ → Except String (List (List ℕ))
  | [] => Except.ok []
  | node :: rest =>
      match npChoice rng (node * k) (popList N node) k with
      | Except.error e => Except.error e
      | Except.ok t =>
          match buildAux rng N k rest with
          | Except.error e => Except.error e
          | Except.ok ts => Except.ok (t :: ts)

/-- The graph-construction loop of the source (`for node in range(N):
targets = np.random.choice([...], k, replace=False); add edges`), returning
for each node its list of targets. -/
def buildTargets (rng : ℕ → ℕ) (N k : ℕ) : Except String (List (List ℕ)) :=
  buildAux rng N k (List.range N)

/-- The per-neuron model parameters `params["a"], ..., params["d"]`. -/
structure Params where
  a : ℕ → ℚ
  b : ℕ → ℚ
  c : ℕ → ℚ
  d : ℕ → ℚ

/-- `params = {"a": uniform(0.01,0.03,N), "b": uniform(0.1,0.3,N),
"c": uniform(-68,-58,N), "d": uniform(2,10,N)}`, the draws taken from the
seeded stream starting at offset `base`. -/
def sampleParams (seed base N : ℕ) : Params where
  a := fun i => unif 0.01 0.03 (unitDraw seed (base + i))
  b := fun i => unif 0.1 0.3 (unitDraw seed (base + N + i))
  c := fun i => unif (-68) (-58) (unitDraw seed (base + 2 * N + i))
  d := fun i => unif 2 10 (unitDraw seed (base + 3 * N + i))

/-- The mutable per-neuron state: membrane potential `V`, recovery `u`, and
the input-current array `I` (overwritten each step). -/
structure NState where
  V : ℕ → ℚ
  u : ℕ → ℚ
  I : ℕ → ℚ

/-- Inner loop `for j in neighbors: new_I[j] += f j`, accumulating into the
current array. -/
def addContrib (f : ℕ → ℚ) : List ℕ → (ℕ → ℚ) → ℕ → ℚ
  | [], acc => acc
  | j :: rest, acc => addContrib f rest (Function.update acc j (acc j + f j))

/-- Outer propagation loop: `for i in range(N): if V[i] > 0: for j in
G.successors(i): new_I[j] += W[i, j] * (V[i]*2 - params["c"][i])`. -/
def propLoop (G : ℕ → List ℕ) (W : ℕ → ℕ → ℚ) (cp : ℕ → ℚ) (V : ℕ → ℚ) :
    List ℕ → (ℕ → ℚ) → ℕ → ℚ
  | [], acc => acc
  | i :: rest, acc =>
      propLoop G W cp V rest
        (if 0 < V i then addContrib (fun j => W i j * (V i * 2 - cp i)) (G i) acc
         else acc)

/-- The freshly computed `new_I` array: propagation from all firing neurons
starting from the zero accumulator. -/
def newI (N : ℕ) (G : ℕ → List ℕ) (W : ℕ → ℕ → ℚ) (cp : ℕ → ℚ)
    (V : ℕ → ℚ) : ℕ → ℚ :=
  propLoop G W cp V (List.range N) (fun _ => 0)

/-- The non-noise current neuron `i` contributes to neuron `j` in one
propagation pass: zero unless `V i > 0`, otherwise the edge weight times
`V[i]*2 - c[i]`, once per occurrence of `j` among `i`'s targets. -/
def srcContrib (G : ℕ → List ℕ) (W : ℕ → ℕ → ℚ) (cp : ℕ → ℚ) (V : ℕ → ℚ)
    (i j : ℕ) : ℚ :=
  if 0 < V i then ((G i).count j : ℚ) * (W i j * (V i * 2 - cp i)) else 0

/-- One iteration of the dynamics loop body: `V[i], u[i] = izhikevich(...)`;
`V[i] = np.clip(V[i], -80, 80)`. -/
def dynStep (P : Params) (Iarr : ℕ → ℚ) (i : ℕ) (V u : ℕ → ℚ) :
    (ℕ → ℚ) × (ℕ → ℚ) :=
  let r := izhikevich (V i) (u i) (Iarr i) (P.a i) (P.b i) (P.c i) (P.d i)
  (Function.update V i (clip (-80) 80 r.1), Function.update u i r.2)

/-- The in-place dynamics loop `for i in range(N): ...` over a list of
indices. -/
def dynLoop (P : Params) (Iarr : ℕ → ℚ) :
    List ℕ → (ℕ → ℚ) × (ℕ → ℚ) → (ℕ → ℚ) × (ℕ → ℚ)
  | [], s => s
  | i :: rest, s => dynLoop P Iarr rest (dynStep P Iarr i s.1 s.2)

/-- One simulation step, translated from `update(t)`: first the whole input
current is recomputed from the previous potentials and noise is added to
every entry, then the dynamics loop updates each neuron in place with that
current. -/
def update (N : ℕ) (G : ℕ → List ℕ) (W : ℕ → ℕ → ℚ) (P : Params)
    (noise : ℕ → ℚ) (s : NState) : NState :=
  let Inew := fun j => newI N G W P.c s.V j + noise j
  let r := dynLoop P Inew (List.range N) (s.V, s.u)
  ⟨r.1, r.2, Inew⟩

/-- The state trajectory: `traj ... t` is the state after `t` animation
frames, each frame running `update` with that frame's noise draws. -/
def traj (N : ℕ) (G : ℕ → List ℕ) (W : ℕ → ℕ → ℚ) (P : Params)
    (noise : ℕ → ℕ → ℚ) (s0 : NState) : ℕ → NState
  | 0 => s0
  | t + 1 => update N G W P (noise t) (traj N G W P noise s0 t)

/-- Contents of `V = np.full(N, -65.0); V[0] = 60` once the assignment has
succeeded (it requires `N ≥ 1`; the failing case is carried by `initState`). -/
def initV : ℕ → ℚ := fun i => if i = 0 then 60 else -65

/-- `u = np.full(N, 0.0)`. -/
def initU : ℕ → ℚ := fun _ => 0

/-- Contents of `I = np.zeros(N); I[0] = 150` once the assignment has
succeeded (again only possible for `N ≥ 1`). -/
def initI : ℕ → ℚ := fun i => if i = 0 then 150 else 0

/-- Construction of the initial state: the seed-neuron assignments
`V[0] = 60` and `I[0] = 150` index into arrays of length `N`, so numpy
raises an out-of-bounds error when `N = 0`; for `N ≥ 1` the initial arrays
are `initV`, `initU`, `initI`.  (Node count is embedded as a natural
number, so negative `N` is outside the model.) -/
def initState (N : ℕ) : Except String NState :=
  if N = 0 then Except.error "index 0 is out of bounds for axis 0 with size 0"
  else Except.ok ⟨initV, initU, initI⟩

/-- The edge list in source-grouped order, as produced by the construction
loop (`G.edges()`). -/
def edgesOf (N : ℕ) (G : ℕ → List ℕ) : List (ℕ × ℕ) :=
  (List.range N).flatMap (fun i => (G i).map (fun j => (i, j)))

/-- `W[i, j] = np.random.uniform(0.8, 1.2)` for each edge in order: the
weight of edge `(i, j)` is the uniform draw at the edge's position in the
edge list; pairs that are not edges keep weight `0` (`W = np.zeros((N, N))`). -/
def lookupW (seed base : ℕ) (edges : List (ℕ × ℕ)) (i j : ℕ) : ℚ :=
  match edges.findIdx? (fun e => e == (i, j)) with
  | some p => unif 0.8 1.2 (unitDraw seed (base + p))
  | none => 0

/-- Everything a run produces: the graph, the edge weights, the neuron
parameters, and the trajectory of states after steps `0, 1, ..., T`. -/
structure SimRun where
  targets : List (List ℕ)
  weight : ℕ → ℕ → ℚ
  P : Params
  states : List NState

/-- A whole run of the script with configuration `(seed, N, k, T)`: seed the
stream, build the graph (which can fail in `np.random.choice`), build the
initial state (which fails for `N = 0` at the seed-neuron assignment, in
source order after graph construction), sample parameters and weights, and
iterate `update` for `T` frames from the initial state. -/
def runSim (seed N k T : ℕ) : Except String SimRun :=
  match buildTargets (mkStream seed) N k with
  | Except.error e => Except.error e
  | Except.ok ts =>
      match initState N with
      | Except.error e => Except.error e
      | Except.ok s0 =>
          let G := fun i => ts.getD i []
          let P := sampleParams seed (N * k) N
          let edges := edgesOf N G
          let W := lookupW seed (N * k + 4 * N) edges
          let noise := fun t j =>
            unif (-(1/2)) (1/2) (unitDraw seed (N * k + 4 * N + edges.length + t * N + j))
          Except.ok ⟨ts, W, P, (List.range (T + 1)).map (traj N G W P noise s0)⟩

/-- Concrete two-neuron test graph: one edge `0 → 1`. -/
def Gc : ℕ → List ℕ := fun i => if i = 0 then [1] else []

/-- Concrete test weights: every pair weighted `1`. -/
def Wc : ℕ → ℕ → ℚ := fun _ _ => 1

/-- Concrete test parameters, all within the sampled ranges. -/
def Pc : Params := ⟨fun _ => 0.02, fun _ => 0.2, fun _ => -65, fun _ => 8⟩

/-- Concrete zero noise for one step. -/
def noisec : ℕ → ℚ := fun _ => 0

/-- Concrete test state: neuron 0 at `60`, neuron 1 at `-65`, with the
source's initial current array. -/
def sc : NState := ⟨fun i => if i = 0 then 60 else -65, fun _ => 0, initI⟩

/-- The same potentials and recovery as `sc` but a zero current array. -/
def sc2 : NState := ⟨fun i => if i = 0 then 60 else -65, fun _ => 0, fun _ => 0⟩

/-! ### Helper lemmas -/

theorem clip_eq_self (lo hi x : ℚ) (h1 : lo ≤ x) (h2 : x ≤ hi) : clip lo hi x = x := by
  unfold clip
  rw [max_eq_left h1, min_eq_left h2]

theorem clip_lt_of_lt (lo hi x t : ℚ) (hx : x < t) (hlo : lo < t) : clip lo hi x < t :=
  lt_of_le_of_lt (min_le_left _ _) (max_lt hx hlo)

/-- Closed form of the single-neuron update. -/
theorem izh_eq (V u I a b c d : ℚ) :
    izhikevich V u I a b c d =
      if 30 ≤ V + (0.04 * V ^ 2 + 5 * V + 140 - u + I)
      then (c, (u + a * (b * V - u)) + d)
      else (V + (0.04 * V ^ 2 + 5 * V + 140 - u + I), u + a * (b * V - u)) := rfl

/-- Indices not in the index list are untouched by the dynamics loop. -/
theorem dynLoop_notMem (P : Params) (Iarr : ℕ → ℚ) :
    ∀ (l : List ℕ) (V u : ℕ → ℚ) (i : ℕ), i ∉ l →
      (dynLoop P Iarr l (V, u)).1 i = V i ∧ (dynLoop P Iarr l (V, u)).2 i = u i := by
  intro l
  induction l with
  | nil => exact fun V u i _ => ⟨rfl, rfl⟩
  | cons j rest ih =>
    intro V u i hi
    have hij : i ≠ j := fun h => hi (h ▸ List.mem_cons_self j rest)
    have hrest : i ∉ rest := fun h => hi (List.mem_cons_of_mem _ h)
    simp only [dynLoop, dynStep]
    constructor
    · rw [(ih _ _ i hrest).1, Function.update_noteq hij]
    · rw [(ih _ _ i hrest).2, Function.update_noteq hij]

/-- On a duplicate-free index list, the in-place dynamics loop acts pointwise:
each listed neuron is updated from its own previous values only. -/
theorem dynLoop_mem (P : Params) (Iarr : ℕ → ℚ) :
    ∀ (l : List ℕ), l.Nodup → ∀ (V u : ℕ → ℚ) (i : ℕ), i ∈ l →
      (dynLoop P Iarr l (V, u)).1 i
        = clip (-80) 80
            (izhikevich (V i) (u i) (Iarr i) (P.a i) (P.b i) (P.c i) (P.d i)).1 ∧
      (dynLoop P Iarr l (V, u)).2 i
        = (izhikevich (V i) (u i) (Iarr i) (P.a i) (P.b i) (P.c i) (P.d i)).2 := by
  intro l
  induction l with
  | nil =>
    intro _ V u i hi
    simp at hi
  | cons j rest ih =>
    intro hnd V u i hi
    have hnd2 := (List.nodup_cons.mp hnd).2
    simp only [dynLoop, dynStep]
    rcases List.mem_cons.mp hi with he | hm
    · subst he
      have hirest : i ∉ rest := (List.nodup_cons.mp hnd).1
      have h1 := dynLoop_notMem P Iarr rest
        (Function.update V i (clip (-80) 80
          (izhikevich (V i) (u i) (Iarr i) (P.a i) (P.b i) (P.c i) (P.d i)).1))
        (Function.update u i
          (izhikevich (V i) (u i) (Iarr i) (P.a i) (P.b i) (P.c i) (P.d i)).2) i hirest
      constructor
      · rw [h1.1, Function.update_same]
      · rw [h1.2, Function.update_same]
    · have hij : i ≠ j := fun h => (List.nodup_cons.mp hnd).1 (h ▸ hm)
      have h2 := ih hnd2
        (Function.update V j (clip (-80) 80
          (izhikevich (V j) (u j) (Iarr j) (P.a j) (P.b j) (P.c j) (P.d j)).1))
        (Function.update u j
          (izhikevich (V j) (u j) (Iarr j) (P.a j) (P.b j) (P.c j) (P.d j)).2) i hm
      rw [Function.update_noteq hij, Function.update_noteq hij] at h2
      exact h2

/-- Pointwise description of one `update` call: the stored current is the
freshly propagated current plus noise, and each neuron's new state is the
clamped Izhikevich update of its own previous state under that current. -/
theorem update_apply (N : ℕ) (G : ℕ → List ℕ) (W : ℕ → ℕ → ℚ) (P : Params)
    (noise : ℕ → ℚ) (s : NState) (i : ℕ) (hi : i < N) :
    (update N G W P noise s).V i
      = clip (-80) 80 (izhikevich (s.V i) (s.u i) (newI N G W P.c s.V i + noise i)
          (P.a i) (P.b i) (P.c i) (P.d i)).1 ∧
    (update N G W P noise s).u i
      = (izhikevich (s.V i) (s.u i) (newI N G W P.c s.V i + noise i)
          (P.a i) (P.b i) (P.c i) (P.d i)).2 ∧
    (update N G W P noise s).I i = newI N G W P.c s.V i + noise i := by
  have h := dynLoop_mem P (fun j => newI N G W P.c s.V j + noise j) (List.range N)
    (List.nodup_range N) s.V s.u i (List.mem_range.mpr hi)
  exact ⟨h.1, h.2, rfl⟩

/-- The accumulation inner loop adds `f j` once per occurrence of `j` in the
target list. -/
theorem addContrib_apply (f : ℕ → ℚ) :
    ∀ (l : List ℕ) (acc : ℕ → ℚ) (j : ℕ),
      addContrib f l acc j = acc j + (l.count j : ℚ) * f j := by
  intro l
  induction l with
  | nil =>
    intro acc j
    simp [addContrib]
  | cons j0 rest ih =>
    intro acc j
    simp only [addContrib]
    rw [ih]
    rcases eq_or_ne j j0 with h | h
    · subst h
      rw [Function.update_same, List.count_cons]
      simp only [beq_self_eq_true, if_true]
      push_cast
      ring
    · rw [Function.update_noteq h, List.count_cons]
      have : (j0 == j) = false := beq_eq_false_iff_ne.mpr (Ne.symm h)
      rw [this]
      simp

/-- The propagation loop adds, per listed source neuron, its contribution. -/
theorem propLoop_apply (G : ℕ → List ℕ) (W : ℕ → ℕ → ℚ) (cp V : ℕ → ℚ) :
    ∀ (l : List ℕ) (acc : ℕ → ℚ) (j : ℕ),
      propLoop G W cp V l acc j
        = acc j + (l.map (fun i => srcContrib G W cp V i j)).sum := by
  intro l
  induction l with
  | nil =>
    intro acc j
    simp [propLoop]
  | cons i rest ih =>
    intro acc j
    simp only [propLoop, List.map_cons, List.sum_cons]
    rw [ih]
    rcases lt_or_ge 0 (V i) with h | h
    · rw [if_pos h, addContrib_apply]
      simp only [srcContrib, if_pos h]
      ring
    · rw [if_neg (not_lt.mpr h)]
      simp only [srcContrib, if_neg (not_lt.mpr h)]
      ring

/-- The freshly computed current is the sum of the per-source contributions. -/
theorem newI_apply (N : ℕ) (G : ℕ → List ℕ) (W : ℕ → ℕ → ℚ) (cp V : ℕ → ℚ)
    (j : ℕ) :
    newI N G W cp V j
      = ((List.range N).map (fun i => srcContrib G W cp V i j)).sum := by
  rw [newI, propLoop_apply]
  simp

/-- `update` reads only the potentials and recovery variables of the previous
state, never its stored current. -/
theorem update_ext (N : ℕ) (G : ℕ → List ℕ) (W : ℕ → ℕ → ℚ) (P : Params)
    (noise : ℕ → ℚ) (s1 s2 : NState) (hV : s1.V = s2.V) (hu : s1.u = s2.u) :
    update N G W P noise s1 = update N G W P noise s2 := by
  cases s1
  cases s2
  have hV2 : _ = _ := hV
  have hu2 : _ = _ := hu
  subst hV2
  subst hu2
  rfl

theorem popList_mem (N node t : ℕ) : t ∈ popList N node ↔ t < N ∧ t ≠ node := by
  simp [popList, List.mem_filter, List.mem_range]

theorem popList_length (N node : ℕ) (h : node < N) :
    (popList N node).length = N - 1 := by
  have he : popList N node = (List.range N).erase node :=
    (List.Nodup.erase_eq_filter (List.nodup_range N) node).symm
  rw [he, List.length_erase_of_mem (List.mem_range.mpr h), List.length_range]

theorem popList_nodup (N node : ℕ) : (popList N node).Nodup :=
  (List.nodup_range N).filter _

theorem choiceAux_length (rng : ℕ → ℕ) :
    ∀ (k off : ℕ) (pop : List ℕ), k ≤ pop.length →
      (choiceAux rng off k pop).length = k := by
  intro k
  induction k with
  | zero => intro off pop _; rfl
  | succ k ih =>
    intro off pop h
    cases pop with
    | nil => simp at h
    | cons x xs =>
      have hlen : rng off % (xs.length + 1) < xs.length + 1 := Nat.mod_lt _ (by omega)
      have he : k ≤ ((x :: xs).eraseIdx (rng off % (xs.length + 1))).length := by
        rw [List.length_eraseIdx]
        simp only [List.length_cons]
        rw [if_pos hlen]
        simp only [List.length_cons] at h
        omega
      simp only [choiceAux, List.length_cons]
      rw [ih (off + 1) _ he]

theorem choiceAux_subset (rng : ℕ → ℕ) :
    ∀ (k off : ℕ) (pop : List ℕ) (t : ℕ), t ∈ choiceAux rng off k pop → t ∈ pop := by
  intro k
  induction k with
  | zero =>
    intro off pop t ht
    simp [choiceAux] at ht
  | succ k ih =>
    intro off pop t ht
    cases pop with
    | nil => simp [choiceAux] at ht
    | cons x xs =>
      simp only [choiceAux] at ht
      have hlen : rng off % (x :: xs).length < (x :: xs).length :=
        Nat.mod_lt _ (by simp)
      rcases List.mem_cons.mp ht with he | hm
      · subst he
        rw [List.getD_eq_getElem _ _ hlen]
        exact List.getElem_mem hlen
      · exact (List.eraseIdx_sublist _ _).subset (ih _ _ _ hm)

theorem getElem_not_mem_eraseIdx (l : List ℕ) (hnd : l.Nodup) (i : ℕ)
    (h : i < l.length) : l.get ⟨i, h⟩ ∉ l.eraseIdx i := by
  intro hmem
  rcases List.mem_eraseIdx_iff_getElem.mp hmem with ⟨m, hm, hne, heq⟩
  exact hne ((List.Nodup.getElem_inj_iff hnd).mp heq)

theorem choiceAux_nodup (rng : ℕ → ℕ) :
    ∀ (k off : ℕ) (pop : List ℕ), pop.Nodup → (choiceAux rng off k pop).Nodup := by
  intro k
  induction k with
  | zero => intro off pop _; exact List.nodup_nil
  | succ k ih =>
    intro off pop hnd
    cases pop with
    | nil => exact List.nodup_nil
    | cons x xs =>
      simp only [choiceAux]
      have hlen : rng off % (x :: xs).length < (x :: xs).length :=
        Nat.mod_lt _ (by simp)
      refine List.nodup_cons.mpr
        ⟨?_, ih _ _ ((List.eraseIdx_sublist _ _).nodup hnd)⟩
      intro hmem
      have h2 := choiceAux_subset rng k (off + 1) _ _ hmem
      rw [List.getD_eq_getElem _ _ hlen] at h2
      exact getElem_not_mem_eraseIdx (x :: xs) hnd _ hlen h2

theorem buildAux_ok (rng : ℕ → ℕ) (N k : ℕ) :
    ∀ (l : List ℕ), (∀ node ∈ l, k ≤ (popList N node).length) →
      buildAux rng N k l
        = Except.ok (l.map (fun node => choiceAux rng (node * k) k (popList N node))) := by
  intro l
  induction l with
  | nil => intro _; rfl
  | cons node rest ih =>
    intro h
    have h1 : k ≤ (popList N node).length := h node (List.mem_cons_self _ _)
    simp only [buildAux, npChoice, if_pos h1, List.map_cons]
    rw [ih (fun n hn => h n (List.mem_cons_of_mem _ hn))]

/-! ### Claim theorems -/

/-- C1: the single-neuron update computes `dV = 0.04*V^2 + 5*V + 140 - u + I`
and `du = a*(b*V - u)`, sets `V1 = V + dV` and `u1 = u + du`, and when
`V1 ≥ 30` it returns the reset potential `c` together with `u1 + d` (the
recovery increased by exactly `d`); otherwise it returns `(V1, u1)`. -/
theorem izhikevich_single_neuron_update (V u I a b c d : ℚ) :
    izhikevich V u I a b c d =
      if 30 ≤ V + (0.04 * V ^ 2 + 5 * V + 140 - u + I)
      then (c, (u + a * (b * V - u)) + d)
      else (V + (0.04 * V ^ 2 + 5 * V + 140 - u + I), u + a * (b * V - u)) :=
  izh_eq V u I a b c d

/-- C2: after one `update`, the stored input current of neuron `j` is the sum
over all neurons `i` that fired (previous potential strictly above 0) and
have an edge to `j` of `W i j * (2*V[i] - c_i)`, plus that neuron's noise
draw; and a neuron with non-positive potential contributes zero non-noise
current. -/
theorem input_current_is_firing_sum (N : ℕ) (G : ℕ → List ℕ) (W : ℕ → ℕ → ℚ)
    (P : Params) (noise : ℕ → ℚ) (s : NState) (j : ℕ)
    (hG : ∀ i, i < N → (G i).Nodup) :
    (update N G W P noise s).I j
      = ((List.range N).map
          (fun i => if 0 < s.V i ∧ j ∈ G i then W i j * (2 * s.V i - P.c i) else 0)).sum
        + noise j ∧
    ∀ i, s.V i ≤ 0 → srcContrib G W P.c s.V i j = 0 := by
  constructor
  · have h0 : (update N G W P noise s).I j = newI N G W P.c s.V j + noise j := rfl
    rw [h0, newI_apply]
    have hmap : (List.range N).map (fun i => srcContrib G W P.c s.V i j)
        = (List.range N).map
            (fun i => if 0 < s.V i ∧ j ∈ G i then W i j * (2 * s.V i - P.c i) else 0) := by
      apply List.map_congr_left
      intro i himem
      have hN := List.mem_range.mp himem
      rcases lt_or_ge 0 (s.V i) with hv | hv
      · simp only [srcContrib, if_pos hv]
        by_cases hm : j ∈ G i
        · rw [List.count_eq_one_of_mem (hG i hN) hm, if_pos ⟨hv, hm⟩]
          push_cast
          ring
        · rw [List.count_eq_zero.mpr hm, if_neg (fun hc => hm hc.2)]
          push_cast
          ring
      · simp only [srcContrib, if_neg (not_lt.mpr hv)]
        rw [if_neg (fun hc => (not_lt.mpr hv) hc.1)]
    rw [hmap]
  · intro i hvi
    simp only [srcContrib]
    rw [if_neg (not_lt.mpr hvi)]

theorem input_current_is_firing_sum_witness :
    (update 2 Gc Wc Pc noisec sc).I 1
      = ((List.range 2).map
          (fun i => if 0 < sc.V i ∧ 1 ∈ Gc i then Wc i 1 * (2 * sc.V i - Pc.c i) else 0)).sum
        + noisec 1 ∧
    ∀ i, sc.V i ≤ 0 → srcContrib Gc Wc Pc.c sc.V i 1 = 0 :=
  input_current_is_firing_sum 2 Gc Wc Pc noisec sc 1 (by decide)

/-- C3: for `0 < k < N`, graph construction succeeds and gives every node
exactly `k` outgoing targets, all distinct, none equal to the node itself,
all inside `0..N-1`. -/
theorem graph_out_degree (rng : ℕ → ℕ) (N k : ℕ) (hk : 0 < k) (hkN : k < N) :
    ∃ ts : List (List ℕ),
      buildTargets rng N k = Except.ok ts ∧ ts.length = N ∧
      ∀ i, i < N →
        (ts.getD i []).length = k ∧ (ts.getD i []).Nodup ∧
        ∀ t ∈ ts.getD i [], t < N ∧ t ≠ i := by
  have hlen : ∀ node ∈ List.range N, k ≤ (popList N node).length := by
    intro node hn
    rw [popList_length N node (List.mem_range.mp hn)]
    omega
  refine ⟨_, buildAux_ok rng N k (List.range N) hlen, ?_, ?_⟩
  · simp
  · intro i hi
    have hgd : ((List.range N).map
          (fun node => choiceAux rng (node * k) k (popList N node))).getD i []
        = choiceAux rng (i * k) k (popList N i) := by
      rw [List.getD_eq_getElem _ _ (by simpa using hi)]
      rw [List.getElem_map]
      rw [List.getElem_range]
    rw [hgd]
    have hpl : k ≤ (popList N i).length := by
      rw [popList_length N i hi]
      omega
    refine ⟨choiceAux_length rng k _ _ hpl, choiceAux_nodup rng k _ _ (popList_nodup N i), ?_⟩
    intro t ht
    exact (popList_mem N i t).mp (choiceAux_subset rng k _ _ t ht)

theorem graph_out_degree_witness :
    ∃ ts : List (List ℕ),
      buildTargets (mkStream 42) 3 2 = Except.ok ts ∧ ts.length = 3 ∧
      ∀ i, i < 3 →
        (ts.getD i []).length = 2 ∧ (ts.getD i []).Nodup ∧
        ∀ t ∈ ts.getD i [], t < 3 ∧ t ≠ i :=
  graph_out_degree (mkStream 42) 3 2 (by decide) (by decide)

/-- C4: after every `update` pass, every neuron's stored membrane potential
lies in the clamp range `[-80, 80]`. -/
theorem clamp_invariant (N : ℕ) (G : ℕ → List ℕ) (W : ℕ → ℕ → ℚ) (P : Params)
    (noise : ℕ → ℚ) (s : NState) (i : ℕ) (hi : i < N) :
    -80 ≤ (update N G W P noise s).V i ∧ (update N G W P noise s).V i ≤ 80 := by
  rw [(update_apply N G W P noise s i hi).1]
  unfold clip
  constructor
  · exact le_min (le_max_right _ _) (by norm_num)
  · exact min_le_right _ _

theorem clamp_invariant_witness :
    -80 ≤ (update 2 Gc Wc Pc noisec sc).V 0 ∧ (update 2 Gc Wc Pc noisec sc).V 0 ≤ 80 :=
  clamp_invariant 2 Gc Wc Pc noisec sc 0 (by decide)

/-- C5: one step is strictly two-phase: the stored current equals the current
propagated from the fully-settled previous potentials plus noise, and every
neuron's new state is the per-neuron dynamics applied to its own previous
state with that precomputed current — no update observes another neuron's
already-updated value. -/
theorem step_two_phase (N : ℕ) (G : ℕ → List ℕ) (W : ℕ → ℕ → ℚ) (P : Params)
    (noise : ℕ → ℚ) (s : NState) (i : ℕ) (hi : i < N) :
    (update N G W P noise s).I i = newI N G W P.c s.V i + noise i ∧
    (update N G W P noise s).V i
      = clip (-80) 80 (izhikevich (s.V i) (s.u i) (newI N G W P.c s.V i + noise i)
          (P.a i) (P.b i) (P.c i) (P.d i)).1 ∧
    (update N G W P noise s).u i
      = (izhikevich (s.V i) (s.u i) (newI N G W P.c s.V i + noise i)
          (P.a i) (P.b i) (P.c i) (P.d i)).2 := by
  have h := update_apply N G W P noise s i hi
  exact ⟨h.2.2, h.1, h.2.1⟩

theorem step_two_phase_witness :
    (update 2 Gc Wc Pc noisec sc).I 0 = newI 2 Gc Wc Pc.c sc.V 0 + noisec 0 ∧
    (update 2 Gc Wc Pc noisec sc).V 0
      = clip (-80) 80 (izhikevich (sc.V 0) (sc.u 0) (newI 2 Gc Wc Pc.c sc.V 0 + noisec 0)
          (Pc.a 0) (Pc.b 0) (Pc.c 0) (Pc.d 0)).1 ∧
    (update 2 Gc Wc Pc noisec sc).u 0
      = (izhikevich (sc.V 0) (sc.u 0) (newI 2 Gc Wc Pc.c sc.V 0 + noisec 0)
          (Pc.a 0) (Pc.b 0) (Pc.c 0) (Pc.d 0)).2 :=
  step_two_phase 2 Gc Wc Pc noisec sc 0 (by decide)

/-- C6: a whole run is a function of the seed and the configuration alone:
two runs with the same seed and the same `(N, k, T)` produce the same graph,
the same edge weights, the same neuron parameters and the same state
trajectory. -/
theorem run_deterministic (seed1 seed2 N1 N2 k1 k2 T1 T2 : ℕ)
    (hs : seed1 = seed2) (hN : N1 = N2) (hk : k1 = k2) (hT : T1 = T2) :
    runSim seed1 N1 k1 T1 = runSim seed2 N2 k2 T2 := by
  subst hs
  subst hN
  subst hk
  subst hT
  rfl

theorem run_deterministic_witness :
    runSim 42 2 1 3 = runSim 42 2 1 3 :=
  run_deterministic 42 42 2 2 1 1 3 3 rfl rfl rfl rfl

/-- For `N ≥ 1` and `k ≥ N`, graph construction fails at node 0: the
population has `N - 1 < k` elements, so the sampling step refuses. -/
theorem buildTargets_fail_of_k_ge_N (rng : ℕ → ℕ) (N k : ℕ) (hN : 1 ≤ N)
    (hk : N ≤ k) : ∃ e, buildTargets rng N k = Except.error e := by
  obtain ⟨m, rfl⟩ : ∃ m, N = m + 1 := ⟨N - 1, by omega⟩
  rw [buildTargets, List.range_succ_eq_map]
  have h0 : ¬ k ≤ (popList (m + 1) 0).length := by
    rw [popList_length (m + 1) 0 (by omega)]
    omega
  simp only [buildAux, npChoice, if_neg h0]
  exact ⟨_, rfl⟩

/-- C7 counterexample: the configuration `N = 2`, `k = 1`, `T = 0` has a
valid network size but `T ≤ 0`, so by the claim setup must fail fatally
with a ConfigurationError before any step; in fact setup succeeds and the
whole run is accepted without any error (it simply performs zero steps). -/
theorem run_accepts_T_zero : (runSim 42 2 1 0).isOk = true := rfl

/-- C7 (amended): setup performs no explicit validation and raises no
dedicated ConfigurationError; it does abort before any simulation step on
every configuration with `k ≥ N`, via one of the two library error paths
the source actually hits — for `N ≥ 1` and `k ≥ N` graph construction
fails (numpy refuses a sample larger than the population), and for `N = 0`
the seed-neuron assignment `V[0] = 60` fails out of bounds — in particular
`k = N` fails before any step.  Configurations with `T ≤ 0` (and the
fixed, well-formed parameter ranges) are not detected: setup succeeds and
the run completes zero steps without error. -/
theorem setup_fails_k_ge_N_or_N_le_zero (seed N k T : ℕ) (h : N ≤ k) :
    ∃ e, runSim seed N k T = Except.error e := by
  rcases Nat.eq_zero_or_pos N with h0 | h1
  · subst h0
    exact ⟨_, rfl⟩
  · obtain ⟨e, he⟩ := buildTargets_fail_of_k_ge_N (mkStream seed) N k h1 h
    refine ⟨e, ?_⟩
    simp only [runSim, he]

theorem setup_fails_k_ge_N_or_N_le_zero_witness :
    ∃ e, runSim 42 2 2 5 = Except.error e :=
  setup_fails_k_ge_N_or_N_le_zero 42 2 2 5 (by decide)

/-- C8: the stored input-current array of a state never influences the
simulation: two trajectories from states with the same potentials and
recovery variables (currents arbitrary, e.g. the setup array with
`I[0] = 150` versus zeros) agree on potentials and recovery at every step
and are fully identical from step 1 on. -/
theorem initial_current_never_influences (N : ℕ) (G : ℕ → List ℕ)
    (W : ℕ → ℕ → ℚ) (P : Params) (noise : ℕ → ℕ → ℚ) (s1 s2 : NState)
    (hV : s1.V = s2.V) (hu : s1.u = s2.u) :
    (∀ t, (traj N G W P noise s1 t).V = (traj N G W P noise s2 t).V ∧
          (traj N G W P noise s1 t).u = (traj N G W P noise s2 t).u) ∧
    ∀ t, traj N G W P noise s1 (t + 1) = traj N G W P noise s2 (t + 1) := by
  have key : ∀ t, traj N G W P noise s1 (t + 1) = traj N G W P noise s2 (t + 1) := by
    intro t
    induction t with
    | zero => exact update_ext N G W P (noise 0) s1 s2 hV hu
    | succ t ih =>
      show update N G W P (noise (t + 1)) (traj N G W P noise s1 (t + 1))
          = update N G W P (noise (t + 1)) (traj N G W P noise s2 (t + 1))
      rw [ih]
  refine ⟨?_, key⟩
  intro t
  cases t with
  | zero => exact ⟨hV, hu⟩
  | succ t => rw [key t]; exact ⟨rfl, rfl⟩

theorem initial_current_never_influences_witness :
    (∀ t, (traj 2 Gc Wc Pc (fun _ => noisec) sc t).V
            = (traj 2 Gc Wc Pc (fun _ => noisec) sc2 t).V ∧
          (traj 2 Gc Wc Pc (fun _ => noisec) sc t).u
            = (traj 2 Gc Wc Pc (fun _ => noisec) sc2 t).u) ∧
    ∀ t, traj 2 Gc Wc Pc (fun _ => noisec) sc (t + 1)
            = traj 2 Gc Wc Pc (fun _ => noisec) sc2 (t + 1) :=
  initial_current_never_influences 2 Gc Wc Pc (fun _ => noisec) sc sc2 rfl rfl

/-- C9: when a neuron's reset parameter lies in the sampled range
`[-68, -58]`, its stored membrane potential after any `update` pass is
strictly below 30: a pre-reset value reaching 30 is replaced by `c` before
storage and any other value is already below 30. -/
theorem stored_potential_below_threshold (N : ℕ) (G : ℕ → List ℕ)
    (W : ℕ → ℕ → ℚ) (P : Params) (noise : ℕ → ℚ) (s : NState) (i : ℕ)
    (hi : i < N) (hc1 : -68 ≤ P.c i) (hc2 : P.c i ≤ -58) :
    (update N G W P noise s).V i < 30 := by
  rw [(update_apply N G W P noise s i hi).1, izh_eq]
  rcases le_or_lt 30 (s.V i + (0.04 * s.V i ^ 2 + 5 * s.V i + 140 - s.u i
      + (newI N G W P.c s.V i + noise i))) with h | h
  · rw [if_pos h]
    show clip (-80) 80 (P.c i) < 30
    exact clip_lt_of_lt _ _ _ _ (by linarith) (by norm_num)
  · rw [if_neg (not_le.mpr h)]
    show clip (-80) 80 (s.V i + (0.04 * s.V i ^ 2 + 5 * s.V i + 140 - s.u i
      + (newI N G W P.c s.V i + noise i))) < 30
    exact clip_lt_of_lt _ _ _ _ h (by norm_num)

theorem stored_potential_below_threshold_witness :
    (update 2 Gc Wc Pc noisec sc).V 0 < 30 :=
  stored_potential_below_threshold 2 Gc Wc Pc noisec sc 0 (by decide)
    (by norm_num [Pc]) (by norm_num [Pc])

/-- C10: a neuron whose reset branch fires during a step ends the step with
its potential equal to its reset parameter `c`, which (being in the sampled
range `[-68, -58]`) is not above the firing threshold 0, so in the next
propagation pass it contributes zero non-noise current to every neuron. -/
theorem reset_blocks_propagation (N : ℕ) (G : ℕ → List ℕ) (W : ℕ → ℕ → ℚ)
    (P : Params) (noise : ℕ → ℚ) (s : NState) (i : ℕ) (hi : i < N)
    (hc1 : -68 ≤ P.c i) (hc2 : P.c i ≤ -58)
    (hfire : 30 ≤ s.V i + (0.04 * s.V i ^ 2 + 5 * s.V i + 140 - s.u i
      + (newI N G W P.c s.V i + noise i))) :
    (update N G W P noise s).V i = P.c i ∧
    ∀ j, srcContrib G W P.c (update N G W P noise s).V i j = 0 := by
  have hV : (update N G W P noise s).V i = P.c i := by
    rw [(update_apply N G W P noise s i hi).1, izh_eq, if_pos hfire]
    show clip (-80) 80 (P.c i) = P.c i
    exact clip_eq_self _ _ _ (by linarith) (by linarith)
  have hneg : ¬ 0 < (update N G W P noise s).V i := by
    rw [hV]
    linarith
  exact ⟨hV, fun j => by simp only [srcContrib, if_neg hneg]⟩

theorem reset_blocks_propagation_witness :
    (update 2 Gc Wc Pc noisec sc).V 0 = Pc.c 0 ∧
    ∀ j, srcContrib Gc Wc Pc.c (update 2 Gc Wc Pc noisec sc).V 0 j = 0 := by
  refine reset_blocks_propagation 2 Gc Wc Pc noisec sc 0 (by decide)
    (by norm_num [Pc]) (by norm_num [Pc]) ?_
  have h1 : newI 2 Gc Wc Pc.c sc.V 0 = 0 := by
    norm_num [newI, propLoop, addContrib, List.range_succ, Gc, Wc, Pc, sc,
      Function.update_apply]
  rw [h1]
  norm_num [sc, noisec]

end IzhNet
